import Mathlib

/-!
Shallow embedding of the geyser gRPC streaming service core
(yellowstone-grpc-geyser/src/grpc.rs): the message data model, the
broadcast-loop accumulators (per-slot dedup map, block reconstruction
aggregate, processed batch), the block-metadata cache with its point
queries, and the account-data slicing of the wire encoder.

Machine integers (u64, usize) are embedded as Nat; the only place where
u64 overflow matters (the retention subtractions in the cache sweep) uses
an explicit wrapping subtraction modulo 2^64. Pubkeys, signatures and the
opaque external payloads (SanitizedTransaction, TransactionStatusMeta,
Reward) are embedded as Nat tokens: the code never inspects them.
Fallible RPC handlers return Except Status.
-/

/-- CommitmentLevel from the proto enum: the three commitment streams. -/
inductive CommitmentLevel where
  | processed
  | confirmed
  | finalized
deriving DecidableEq, Repr

/-- MessageAccountInfo (grpc.rs lines 51-61). Pubkeys, signatures are opaque tokens. -/
structure MessageAccountInfo where
  pubkey : Nat
  lamports : Nat
  owner : Nat
  executable : Bool
  rent_epoch : Nat
  data : List Nat
  write_version : Nat
  txn_signature : Option Nat
deriving DecidableEq, Repr

/-- MessageAccount (grpc.rs lines 63-68). -/
structure MessageAccount where
  account : MessageAccountInfo
  slot : Nat
  is_startup : Bool
deriving DecidableEq, Repr

/-- MessageSlot (grpc.rs lines 89-94). -/
structure MessageSlot where
  slot : Nat
  parent : Option Nat
  status : CommitmentLevel
deriving DecidableEq, Repr

/-- MessageTransactionInfo (grpc.rs lines 110-117); the SanitizedTransaction and
TransactionStatusMeta payloads are opaque tokens. -/
structure MessageTransactionInfo where
  signature : Nat
  is_vote : Bool
  transaction : Nat
  meta : Nat
  index : Nat
deriving DecidableEq, Repr

/-- MessageTransaction (grpc.rs lines 131-135). -/
structure MessageTransaction where
  transaction : MessageTransactionInfo
  slot : Nat
deriving DecidableEq, Repr

/-- MessageBlockMeta (grpc.rs lines 179-189); Reward entries are opaque tokens. -/
structure MessageBlockMeta where
  parent_slot : Nat
  slot : Nat
  parent_blockhash : String
  blockhash : String
  rewards : List Nat
  block_time : Option Int
  block_height : Option Nat
  executed_transaction_count : Nat
deriving DecidableEq, Repr

/-- MessageBlock (grpc.rs lines 152-162). -/
structure MessageBlock where
  parent_slot : Nat
  slot : Nat
  parent_blockhash : String
  blockhash : String
  rewards : List Nat
  block_time : Option Int
  block_height : Option Nat
  transactions : List MessageTransactionInfo
deriving DecidableEq, Repr

/-- From (MessageBlockMeta, Vec of MessageTransactionInfo) for MessageBlock
(grpc.rs lines 164-177). -/
def MessageBlock.ofMetaAndTransactions (blockinfo : MessageBlockMeta)
    (transactions : List MessageTransactionInfo) : MessageBlock :=
  { parent_slot := blockinfo.parent_slot
    slot := blockinfo.slot
    parent_blockhash := blockinfo.parent_blockhash
    blockhash := blockinfo.blockhash
    rewards := blockinfo.rewards
    block_time := blockinfo.block_time
    block_height := blockinfo.block_height
    transactions := transactions }

/-- Message (grpc.rs lines 206-214): the tagged event variant. -/
inductive Message where
  | slot (msg : MessageSlot)
  | account (msg : MessageAccount)
  | transaction (msg : MessageTransaction)
  | block (msg : MessageBlock)
  | blockMeta (msg : MessageBlockMeta)
deriving DecidableEq, Repr

/-- Message::get_slot (grpc.rs lines 217-225). -/
def Message.get_slot : Message → Nat
  | .slot msg => msg.slot
  | .account msg => msg.slot
  | .transaction msg => msg.slot
  | .block msg => msg.slot
  | .blockMeta msg => msg.slot

/-- Modelled from the spec: FilterAccountsDataSlice (from the filter compiler,
which is outside the covered sources) is a (start, end = start+length) range;
the source field named end is embedded as stop, a Lean keyword clash. -/
structure FilterAccountsDataSlice where
  start : Nat
  stop : Nat
  length : Nat
deriving DecidableEq, Repr

/-- Account data computation of Message::to_proto in the Account arm
(grpc.rs lines 234-248): empty slice list means full data, otherwise the
ranges are concatenated in order, each included only when its end fits. -/
def MessageAccount.toProtoData (message : MessageAccount)
    (accounts_data_slice : List FilterAccountsDataSlice) : List Nat :=
  if accounts_data_slice.isEmpty then
    message.account.data
  else
    accounts_data_slice.foldl
      (fun data ds =>
        if ds.stop ≤ message.account.data.length then
          data ++ (message.account.data.drop ds.start).take (ds.stop - ds.start)
        else data)
      []

/-! Association-list embeddings of std HashMap and BTreeMap values.
hmGet returns the value at the first matching key; hmInsert replaces the
first occurrence in place or appends a fresh key at the tail. The BTreeMap
of the broadcast loop is a key-sorted association list: txSet inserts in
key order, txRemove drops the key. -/

/-- HashMap get: first entry with a matching key. -/
def hmGet {α β : Type} [DecidableEq α] : List (α × β) → α → Option β
  | [], _ => none
  | (k, v) :: rest, key => if k = key then some v else hmGet rest key

/-- HashMap insert: replace the first occurrence or append at the tail. -/
def hmInsert {α β : Type} [DecidableEq α] : List (α × β) → α → β → List (α × β)
  | [], key, value => [(key, value)]
  | (k, v) :: rest, key, value =>
    if k = key then (key, value) :: rest else (k, v) :: hmInsert rest key value

/-- One entry of the block-reconstruction aggregate: optional meta plus the
transactions collected so far (grpc.rs lines 527-530). -/
abbrev TxAggEntry : Type := Option MessageBlockMeta × List MessageTransactionInfo

/-- The block-reconstruction BTreeMap, as a key-sorted association list. -/
abbrev TxAgg : Type := List (Nat × TxAggEntry)

/-- BTreeMap get: same lookup semantics as the hash map embedding. -/
def txGet (tx : TxAgg) (key : Nat) : Option TxAggEntry :=
  hmGet tx key

/-- BTreeMap insert, keeping the list sorted by key. -/
def txSet : TxAgg → Nat → TxAggEntry → TxAgg
  | [], key, value => [(key, value)]
  | (k, e) :: rest, key, value =>
    if key < k then (key, value) :: (k, e) :: rest
    else if key = k then (key, value) :: rest
    else (k, e) :: txSet rest key value

/-- BTreeMap remove: drop the key. -/
def txRemove (tx : TxAgg) (key : Nat) : TxAgg :=
  tx.filter (fun kv => kv.1 ≠ key)

/-- One per-slot accumulator entry of the broadcast loop (grpc.rs lines
531-535): the sequence of optional messages and the pubkey side-map sending
each pubkey to its (write_version, index into the sequence). -/
structure SlotEntry where
  vec : List (Option Message)
  map : Nat → Option (Nat × Nat)

/-- The default (empty) per-slot entry, as created by or_default. -/
def SlotEntry.empty : SlotEntry :=
  ⟨[], fun _ => none⟩

/-- Insertion into a per-slot entry (grpc.rs lines 592-609): an account
message is deduplicated by pubkey on write_version (strictly greater wins:
the superseded position is nulled and the new message appended at the
tail); any other message is appended at the tail. -/
def SlotEntry.insert (e : SlotEntry) (m : Message) : SlotEntry :=
  match m with
  | .account message =>
    let write_version := message.account.write_version
    let index := e.vec.length
    match e.map message.account.pubkey with
    | some entry =>
      if entry.1 < write_version then
        ⟨(e.vec.set entry.2 none) ++ [some m],
         fun p => if p = message.account.pubkey then some (write_version, index) else e.map p⟩
      else e
    | none =>
      ⟨e.vec ++ [some m],
       fun p => if p = message.account.pubkey then some (write_version, index) else e.map p⟩
  | _ => ⟨e.vec ++ [some m], e.map⟩

/-- PROCESSED_MESSAGES_MAX (grpc.rs line 524). -/
def PROCESSED_MESSAGES_MAX : Nat := 31

/-- Result of one process_message expansion: the new per-slot accumulator
map, the new pending processed batch, and the batches published on the
fan-out bus during this call, in publication order. -/
structure ProcessResult where
  messages : Nat → Option SlotEntry
  processed_messages : List Message
  broadcasts : List (CommitmentLevel × List Message)

/-- The process_message macro of geyser_loop (grpc.rs lines 540-612).
A slot message publishes one batch on each commitment channel (replaying
the per-slot entry at Confirmed, consuming it and evicting lower slots at
Finalized) and flushes the pending processed batch. A non-slot message
joins the processed batch (flushed at PROCESSED_MESSAGES_MAX) and is
inserted into its slot entry with account dedup. -/
def processMessage (messages : Nat → Option SlotEntry)
    (processed_messages : List Message) (m : Message) : ProcessResult :=
  match m with
  | .slot slotMsg =>
    let step : (List Message × List Message) × (Nat → Option SlotEntry) :=
      match slotMsg.status with
      | .processed => (([], []), messages)
      | .confirmed =>
        ((((messages slotMsg.slot).map (fun e => e.vec.filterMap id)).getD [], []), messages)
      | .finalized =>
        (([], ((messages slotMsg.slot).map (fun e => e.vec.filterMap id)).getD []),
         fun k => if slotMsg.slot < k then messages k else none)
    { messages := step.2
      processed_messages := []
      broadcasts :=
        [(CommitmentLevel.processed, processed_messages ++ [m]),
         (CommitmentLevel.confirmed, step.1.1 ++ [m]),
         (CommitmentLevel.finalized, step.1.2 ++ [m])] }
  | _ =>
    let processed1 := processed_messages ++ [m]
    let flush := PROCESSED_MESSAGES_MAX ≤ processed1.length
    let entry := (messages m.get_slot).getD SlotEntry.empty
    { messages := fun k => if k = m.get_slot then some (entry.insert m) else messages k
      processed_messages := if flush then [] else processed1
      broadcasts := if flush then [(CommitmentLevel.processed, processed1)] else [] }

/-- Whether a message participates in block reconstruction (grpc.rs lines
625-637): only Transaction and BlockMeta messages do. -/
def isBlockConstructing : Message → Bool
  | .transaction _ => true
  | .blockMeta _ => true
  | _ => false

/-- The aggregation half of block reconstruction (grpc.rs lines 625-636):
a transaction is appended to its slot aggregate, a block meta is stored in
its slot aggregate; other messages leave the aggregate unchanged. -/
def constructBlockAgg (tx : TxAgg) (m : Message) : TxAgg :=
  match m with
  | .transaction msg_tx =>
    let e := (txGet tx m.get_slot).getD (none, [])
    txSet tx m.get_slot (e.1, e.2 ++ [msg_tx.transaction])
  | .blockMeta msg_block =>
    let e := (txGet tx m.get_slot).getD (none, [])
    txSet tx m.get_slot (some msg_block, e.2)
  | _ => tx

/-- Sorting of the reconstructed transactions by index
(grpc.rs line 642: sort_by on index, a stable sort). -/
def sortTxs (l : List MessageTransactionInfo) : List MessageTransactionInfo :=
  l.mergeSort (fun tx1 tx2 => tx1.index ≤ tx2.index)

/-- Block reconstruction trigger (grpc.rs lines 623-645): after aggregating
a Transaction or BlockMeta message, when the slot aggregate has a meta
whose executed_transaction_count equals the number of collected
transactions, the entry is removed and a full Block message synthesized
with its transactions sorted ascending by index. -/
def constructBlock (tx : TxAgg) (m : Message) : TxAgg × Option Message :=
  if isBlockConstructing m then
    let tx1 := constructBlockAgg tx m
    match txGet tx1 m.get_slot with
    | some (some block_meta, txs) =>
      if block_meta.executed_transaction_count = txs.length then
        (txRemove tx1 m.get_slot,
         some (Message.block (MessageBlock.ofMetaAndTransactions block_meta (sortTxs txs))))
      else (tx1, none)
    | _ => (tx1, none)
  else (tx, none)

/-- The outdated-transactions sweep run on a Finalized slot message
(grpc.rs lines 647-665), iterating from the smallest key of the aggregate:
keys below the finalized slot are dropped; the entry at the finalized slot
is dropped, bumping the invalid-full-block counter when its meta was set;
the loop stops at the first larger key. -/
def sweepTransactions (slot : Nat) (counter : Nat) : TxAgg → TxAgg × Nat
  | [] => ([], counter)
  | (kslot, e) :: rest =>
    if kslot < slot then sweepTransactions slot counter rest
    else if kslot = slot then
      sweepTransactions slot (if e.1.isSome then counter + 1 else counter) rest
    else ((kslot, e) :: rest, counter)

/-- The private state of geyser_loop (grpc.rs lines 527-537) plus the
INVALID_FULL_BLOCKS counter it increments. -/
structure GeyserState where
  transactions : TxAgg
  messages : Nat → Option SlotEntry
  processed_messages : List Message
  invalid_full_blocks : Nat

/-- The initial geyser_loop state: empty aggregates and a zero counter. -/
def initialGeyserState : GeyserState :=
  ⟨[], fun _ => none, [], 0⟩

/-- One iteration of the receive branch of geyser_loop (grpc.rs lines
616-668): block reconstruction (processing a synthesized Block message
first when triggered), then the finalized sweep of the aggregate, then
process_message on the original message. Returns the new state and the
batches published, in order. -/
def geyserStep (st : GeyserState) (m : Message) :
    GeyserState × List (CommitmentLevel × List Message) :=
  let cb := constructBlock st.transactions m
  let r1 : ProcessResult :=
    match cb.2 with
    | some blockMessage => processMessage st.messages st.processed_messages blockMessage
    | none => ⟨st.messages, st.processed_messages, []⟩
  let swept : TxAgg × Nat :=
    match m with
    | .slot s =>
      if s.status = CommitmentLevel.finalized then
        sweepTransactions m.get_slot st.invalid_full_blocks cb.1
      else (cb.1, st.invalid_full_blocks)
    | _ => (cb.1, st.invalid_full_blocks)
  let r2 := processMessage r1.messages r1.processed_messages m
  (⟨swept.1, r2.messages, r2.processed_messages, swept.2⟩, r1.broadcasts ++ r2.broadcasts)

/-- The geyser_loop state reached from the initial state after ingesting a
sequence of messages. -/
def geyserReach (ms : List Message) : GeyserState :=
  ms.foldl (fun st m => (geyserStep st m).1) initialGeyserState

/-- The per-slot entry reached from the empty entry by a sequence of
process_message insertions (grpc.rs lines 592-609). -/
def reachEntry (ms : List Message) : SlotEntry :=
  ms.foldl SlotEntry.insert SlotEntry.empty

/-! The block-metadata cache (BlockMetaStorage, grpc.rs lines 296-455). -/

/-- U64MOD is the modulus of u64 arithmetic. -/
def U64MOD : Nat := 2 ^ 64

/-- Wrapping u64 subtraction, as performed by the release-mode build for
the retention arithmetic of the cache sweep. -/
def u64sub (a b : Nat) : Nat := (a + U64MOD - b % U64MOD) % U64MOD

/-- KEEP_SLOTS (grpc.rs line 336). -/
def KEEP_SLOTS : Nat := 3

/-- MAX_RECENT_BLOCKHASHES, the chain constant imported from the SDK. -/
def MAX_RECENT_BLOCKHASHES : Nat := 300

/-- BlockhashStatus (grpc.rs lines 296-313): the slot a blockhash was first
recorded at plus its three per-commitment flags. -/
structure BlockhashStatus where
  slot : Nat
  processed : Bool
  confirmed : Bool
  finalized : Bool
deriving DecidableEq, Repr

/-- BlockhashStatus::new (grpc.rs lines 304-313). -/
def BlockhashStatus.new (slot : Nat) : BlockhashStatus :=
  ⟨slot, false, false, false⟩

/-- BlockMetaStorageInner (grpc.rs lines 315-322): blocks by slot, the
blockhash registry, and the three commitment cursors. -/
structure BlockMetaStorageInner where
  blocks : List (Nat × MessageBlockMeta)
  blockhashes : List (String × BlockhashStatus)
  processed : Option Nat
  confirmed : Option Nat
  finalized : Option Nat
deriving DecidableEq, Repr

/-- The default (empty) cache state. -/
def BlockMetaStorageInner.empty : BlockMetaStorageInner :=
  ⟨[], [], none, none, none⟩

/-- The commitment cursor of the cache (grpc.rs lines 409-413). -/
def cursorOf (storage : BlockMetaStorageInner) : CommitmentLevel → Option Nat
  | .processed => storage.processed
  | .confirmed => storage.confirmed
  | .finalized => storage.finalized

/-- Cursor update on a slot message (grpc.rs lines 341-347). -/
def applySlotCursor (storage : BlockMetaStorageInner) (msg : MessageSlot) :
    BlockMetaStorageInner :=
  match msg.status with
  | .processed => { storage with processed := some msg.slot }
  | .confirmed => { storage with confirmed := some msg.slot }
  | .finalized => { storage with finalized := some msg.slot }

/-- Blockhash registry update on a slot message (grpc.rs lines 349-365):
when the slot has a cached block, its blockhash entry is created if absent
and the flag of the message status is set. -/
def applySlotBlockhash (storage : BlockMetaStorageInner) (msg : MessageSlot) :
    BlockMetaStorageInner :=
  match (hmGet storage.blocks msg.slot).map (fun block => block.blockhash) with
  | some blockhash =>
    let entry := (hmGet storage.blockhashes blockhash).getD (BlockhashStatus.new msg.slot)
    let entry1 :=
      match msg.status with
      | .processed => { entry with processed := true }
      | .confirmed => { entry with confirmed := true }
      | .finalized => { entry with finalized := true }
    { storage with blockhashes := hmInsert storage.blockhashes blockhash entry1 }
  | none => storage

/-- Retention sweeps on a finalized slot message (grpc.rs lines 367-375):
blocks below slot - KEEP_SLOTS and blockhashes recorded below
slot - MAX_RECENT_BLOCKHASHES - 32 are evicted, with wrapping u64
subtractions. -/
def applySlotRetain (storage : BlockMetaStorageInner) (msg : MessageSlot) :
    BlockMetaStorageInner :=
  if msg.status = CommitmentLevel.finalized then
    let keep_slot := u64sub msg.slot KEEP_SLOTS
    let blocks := storage.blocks.filter (fun kv => keep_slot ≤ kv.1)
    let keep_slot2 := u64sub (u64sub msg.slot MAX_RECENT_BLOCKHASHES) 32
    let blockhashes := storage.blockhashes.filter (fun kv => keep_slot2 ≤ kv.2.slot)
    { storage with blocks := blocks, blockhashes := blockhashes }
  else storage

/-- One message applied by the cache writer task (grpc.rs lines 338-384):
slot messages update cursor, blockhash flags and retention; block metas
are stored by slot; any other message is logged and skipped. -/
def applyMessage (storage : BlockMetaStorageInner) (m : Message) :
    BlockMetaStorageInner :=
  match m with
  | .slot msg => applySlotRetain (applySlotBlockhash (applySlotCursor storage msg) msg) msg
  | .blockMeta msg => { storage with blocks := hmInsert storage.blocks msg.slot msg }
  | _ => storage

/-- RPC status values produced by the cache point queries. -/
inductive Status where
  | internal (msg : String)
  | unknown (msg : String)
  | invalidArgument (msg : String)
deriving DecidableEq, Repr

/-- IsBlockhashValidResponse payload. -/
structure IsBlockhashValidResponse where
  valid : Bool
  slot : Nat
deriving DecidableEq, Repr

/-- GetSlotResponse payload. -/
structure GetSlotResponse where
  slot : Nat
deriving DecidableEq, Repr

/-- BlockMetaStorage::get_block (grpc.rs lines 398-422), after
parse_commitment: reads the cursor of the commitment, looks the cursor
slot up in the blocks map and applies the handler; a missing cursor or a
missing block both produce the internal block-is-not-available error, a
handler returning none produces the failed-to-build error. -/
def get_block {T : Type} (storage : BlockMetaStorageInner)
    (handler : MessageBlockMeta → Option T) (commitment : CommitmentLevel) :
    Except Status T :=
  match (cursorOf storage commitment).bind (fun slot => hmGet storage.blocks slot) with
  | some block =>
    match handler block with
    | some resp => Except.ok resp
    | none => Except.error (Status.internal "failed to build response")
  | none => Except.error (Status.internal "block is not available yet")

/-- GrpcService::get_slot (grpc.rs lines 882-892): get_block with a handler
returning the slot of the cached block. -/
def get_slot (storage : BlockMetaStorageInner) (commitment : CommitmentLevel) :
    Except Status GetSlotResponse :=
  get_block storage (fun block => some ⟨block.slot⟩) commitment

/-- BlockMetaStorage::is_blockhash_valid (grpc.rs lines 424-454), after
parse_commitment: the startup error until the registry holds at least
MAX_RECENT_BLOCKHASHES + 32 entries or while the cursor is unset,
otherwise the per-commitment flag of the queried blockhash (false when
absent) together with the cursor slot. -/
def is_blockhash_valid (storage : BlockMetaStorageInner) (blockhash : String)
    (commitment : CommitmentLevel) : Except Status IsBlockhashValidResponse :=
  if storage.blockhashes.length < MAX_RECENT_BLOCKHASHES + 32 then
    Except.error (Status.internal "startup")
  else
    match cursorOf storage commitment with
    | none => Except.error (Status.internal "startup")
    | some slot =>
      let valid :=
        ((hmGet storage.blockhashes blockhash).map (fun status =>
          match commitment with
          | .processed => status.processed
          | .confirmed => status.confirmed
          | .finalized => status.finalized)).getD false
      Except.ok ⟨valid, slot⟩

/-! The per-slot accumulator invariant: soundness of the pubkey side-map,
injectivity of its indices, and completeness over the surviving account
messages of the sequence. -/

/-- EntryInv: the pubkey side-map of a per-slot entry points each pubkey at
a live account message of the sequence carrying that pubkey and the mapped
write_version; distinct pubkeys map to distinct indices; and every live
account message of the sequence is the one its pubkey points at. -/
structure EntryInv (e : SlotEntry) : Prop where
  map_sound : ∀ p w i, e.map p = some (w, i) →
    ∃ a, e.vec[i]? = some (some (Message.account a)) ∧
      a.account.pubkey = p ∧ a.account.write_version = w
  map_inj : ∀ p₁ p₂ w₁ w₂ i, e.map p₁ = some (w₁, i) → e.map p₂ = some (w₂, i) → p₁ = p₂
  vec_sound : ∀ j a, e.vec[j]? = some (some (Message.account a)) →
    e.map a.account.pubkey = some (a.account.write_version, j)

/-- StateInv: every populated per-slot entry of the accumulator satisfies
the entry invariant. -/
def StateInv (messages : Nat → Option SlotEntry) : Prop :=
  ∀ k e, messages k = some e → EntryInv e

/-! History tracking for account dedup: the surviving account message of a
pubkey is the first-arriving one among those with the greatest
write_version. -/

/-- The account messages for a pubkey inside a message sequence. -/
def accountsOf (p : Nat) (ms : List Message) : List MessageAccount :=
  ms.filterMap (fun m =>
    match m with
    | .account a => if a.account.pubkey = p then some a else none
    | _ => none)

/-- The first-arriving account message with the greatest write_version:
a later message replaces the running winner only when its write_version is
strictly greater, mirroring the dedup comparison. -/
def firstMaxAcct (l : List MessageAccount) : Option MessageAccount :=
  l.foldl
    (fun acc a =>
      match acc with
      | none => some a
      | some b => if b.account.write_version < a.account.write_version then some a else acc)
    none

/-- Track: for every pubkey, the side-map of the entry holds exactly the
first-arriving greatest-write_version account message of the history, and
points at a live position carrying it. -/
def Track (ms : List Message) (e : SlotEntry) : Prop :=
  ∀ p,
    match firstMaxAcct (accountsOf p ms) with
    | none => e.map p = none
    | some a => ∃ i, e.map p = some (a.account.write_version, i) ∧
        e.vec[i]? = some (some (Message.account a))

/-! Helper lemmas about the association-list map embeddings. -/

theorem hmGet_eq_none_of_not_mem {α β : Type} [DecidableEq α]
    (l : List (α × β)) (k : α) (h : k ∉ l.map Prod.fst) : hmGet l k = none := by
  induction l with
  | nil => rfl
  | cons kv rest ih =>
    obtain ⟨k1, v1⟩ := kv
    simp only [List.map_cons, List.mem_cons, not_or] at h
    simp only [hmGet, if_neg (fun hk : k1 = k => h.1 hk.symm)]
    exact ih h.2

theorem hmGet_filter_key {α β : Type} [DecidableEq α]
    (l : List (α × β)) (p : α → Bool) (k : α) :
    hmGet (l.filter (fun kv => p kv.1)) k = if p k then hmGet l k else none := by
  induction l with
  | nil => simp [hmGet]
  | cons kv rest ih =>
    obtain ⟨k1, v1⟩ := kv
    by_cases hp : p k1
    · by_cases hk : k1 = k
      · subst hk
        simp [List.filter_cons, hp, hmGet]
      · simp [List.filter_cons, hp, hmGet, hk, ih]
    · by_cases hk : k1 = k
      · subst hk
        simp [List.filter_cons, hp, ih]
      · simp [List.filter_cons, hp, hmGet, hk, ih]

theorem hmGet_filter_val {α β : Type} [DecidableEq α]
    (l : List (α × β)) (p : β → Bool) (k : α) (hnd : (l.map Prod.fst).Nodup) :
    hmGet (l.filter (fun kv => p kv.2)) k =
      (hmGet l k).bind (fun v => if p v then some v else none) := by
  induction l with
  | nil => simp [hmGet]
  | cons kv rest ih =>
    obtain ⟨k1, v1⟩ := kv
    simp only [List.map_cons, List.nodup_cons] at hnd
    by_cases hk : k1 = k
    · subst hk
      by_cases hp : p v1
      · simp [List.filter_cons, hp, hmGet]
      · simp only [List.filter_cons, hp, Bool.false_eq_true, if_false]
        rw [ih hnd.2, hmGet_eq_none_of_not_mem rest k1 hnd.1]
        simp [hmGet, hp]
    · by_cases hp : p v1
      · simp [List.filter_cons, hp, hmGet, hk, ih hnd.2]
      · simp [List.filter_cons, hp, hmGet, hk, ih hnd.2]

theorem txGet_txSet_self (l : TxAgg) (k : Nat) (v : TxAggEntry) :
    txGet (txSet l k v) k = some v := by
  induction l with
  | nil => simp [txSet, txGet, hmGet]
  | cons kv rest ih =>
    obtain ⟨k1, e1⟩ := kv
    by_cases hlt : k < k1
    · simp [txSet, hlt, txGet, hmGet]
    · by_cases heq : k = k1
      · simp [txSet, hlt, heq, txGet, hmGet]
      · simp only [txSet, if_neg hlt, if_neg heq, txGet, hmGet] at ih ⊢
        rw [if_neg (fun h : k1 = k => heq h.symm)]
        exact ih

theorem txGet_txRemove_self (l : TxAgg) (k : Nat) :
    txGet (txRemove l k) k = none := by
  have h := hmGet_filter_key l (fun x => decide (x ≠ k)) k
  simp only [decide_not, txGet, txRemove] at h ⊢
  rw [h]
  simp

/-! Helper lemmas about the finalized sweep of the block aggregate. -/

theorem sweepTransactions_of_forall_gt (slot counter : Nat) (l : TxAgg)
    (h : ∀ kv ∈ l, slot < kv.1) : sweepTransactions slot counter l = (l, counter) := by
  cases l with
  | nil => rfl
  | cons kv rest =>
    obtain ⟨k, e⟩ := kv
    have hk : slot < k := h (k, e) (List.mem_cons_self _ _)
    simp only [sweepTransactions]
    rw [if_neg (by omega), if_neg (by omega)]

theorem txGet_eq_none_of_forall_gt (slot : Nat) (l : TxAgg)
    (h : ∀ kv ∈ l, slot < kv.1) : txGet l slot = none := by
  simp only [txGet]
  apply hmGet_eq_none_of_not_mem
  intro hmem
  rcases List.mem_map.mp hmem with ⟨kv, hkv, hfst⟩
  have := h kv hkv
  omega

theorem sweepTransactions_eq (slot counter : Nat) (l : TxAgg)
    (hs : List.Pairwise (fun a b => a.1 < b.1) l) :
    sweepTransactions slot counter l =
      (l.filter (fun kv => slot < kv.1),
       counter + if ((txGet l slot).bind (fun e => e.1)).isSome then 1 else 0) := by
  induction l generalizing counter with
  | nil => simp [sweepTransactions, txGet, hmGet]
  | cons kv rest ih =>
    obtain ⟨k, e⟩ := kv
    rw [List.pairwise_cons] at hs
    have hhead : ∀ b ∈ rest, k < b.1 := hs.1
    rcases Nat.lt_trichotomy k slot with hlt | heq | hgt
    · have h1 : ¬ slot < k := by omega
      have h2 : ¬ k = slot := by omega
      simp only [sweepTransactions, if_pos hlt, List.filter_cons, decide_eq_true_eq,
        txGet, hmGet, if_neg h1, if_neg h2]
      have := ih counter hs.2
      simp only [txGet] at this
      exact this
    · subst heq
      have h1 : ¬ k < k := by omega
      have hfilter : rest.filter (fun kv => decide (k < kv.1)) = rest :=
        List.filter_eq_self.mpr (fun a ha => by simpa using hhead a ha)
      have hsweep : sweepTransactions k counter ((k, e) :: rest)
          = sweepTransactions k (if e.1.isSome then counter + 1 else counter) rest := by
        simp [sweepTransactions, h1]
      rw [hsweep, sweepTransactions_of_forall_gt k _ rest hhead]
      have htx : txGet ((k, e) :: rest) k = some e := by simp [txGet, hmGet]
      rw [htx]
      have hfc : ((k, e) :: rest).filter (fun kv => k < kv.1) = rest := by
        rw [List.filter_cons]
        simp only [decide_eq_true_eq, if_neg h1]
        exact hfilter
      rw [hfc]
      cases he : e.1 <;> simp [he, Nat.add_comm]
    · have h1 : ¬ k < slot := by omega
      have h2 : ¬ k = slot := by omega
      have hfilter : rest.filter (fun kv => decide (slot < kv.1)) = rest :=
        List.filter_eq_self.mpr (fun a ha => by
          have := hhead a ha
          simp only [decide_eq_true_eq]
          omega)
      have hnone : txGet rest slot = none :=
        txGet_eq_none_of_forall_gt slot rest (fun kv hkv => by
          have := hhead kv hkv
          omega)
      simp only [txGet] at hnone
      simp only [sweepTransactions, if_neg h1, if_neg h2, List.filter_cons,
        decide_eq_true_eq, txGet, hmGet]
      rw [if_pos hgt, hfilter, hnone]
      simp

/-! Helper lemma for the account-data slicing fold. -/

theorem foldl_ite_append_eq_flatMap {α : Type} (p : α → Prop) [DecidablePred p]
    (f : α → List Nat) (l : List α) (acc : List Nat) :
    l.foldl (fun d a => if p a then d ++ f a else d) acc
      = acc ++ (l.filter (fun a => p a)).flatMap f := by
  induction l generalizing acc with
  | nil => simp
  | cons a rest ih =>
    by_cases hp : p a
    · simp [List.filter_cons, hp, ih, List.foldl_cons]
    · simp [List.filter_cons, hp, ih, List.foldl_cons]

theorem entryInv_empty : EntryInv SlotEntry.empty := by
  constructor
  · intro p w i h
    simp [SlotEntry.empty] at h
  · intro p₁ p₂ w₁ w₂ i h₁ h₂
    simp [SlotEntry.empty] at h₁
  · intro j a h
    simp [SlotEntry.empty] at h

theorem entryInv_append_nonaccount (e : SlotEntry) (he : EntryInv e) (m : Message)
    (hm : ∀ a, m ≠ Message.account a) :
    EntryInv ⟨e.vec ++ [some m], e.map⟩ := by
  constructor
  · intro p w i h
    rcases he.map_sound p w i h with ⟨a, ha, hap, haw⟩
    have hi : i < e.vec.length := (List.getElem?_eq_some.mp ha).1
    refine ⟨a, ?_, hap, haw⟩
    show (e.vec ++ [some m])[i]? = _
    rw [List.getElem?_append_left hi]
    exact ha
  · intro p₁ p₂ w₁ w₂ i h₁ h₂
    exact he.map_inj p₁ p₂ w₁ w₂ i h₁ h₂
  · intro j a h
    replace h : (e.vec ++ [some m])[j]? = some (some (Message.account a)) := h
    by_cases hj : j < e.vec.length
    · rw [List.getElem?_append_left hj] at h
      exact he.vec_sound j a h
    · have hj2 : j = e.vec.length := by
        have hlen : j < (e.vec ++ [some m]).length := (List.getElem?_eq_some.mp h).1
        simp at hlen
        omega
      subst hj2
      rw [List.getElem?_concat_length] at h
      injection h with h1
      injection h1 with h2
      exact absurd h2 (hm a)

theorem entryInv_insert (e : SlotEntry) (m : Message) (he : EntryInv e) :
    EntryInv (e.insert m) := by
  cases m with
  | account msg =>
    rcases hm : e.map msg.account.pubkey with _ | ⟨w₀, i₀⟩
    · -- fresh pubkey: append at the tail and extend the map
      rw [SlotEntry.insert, hm]
      constructor
      · intro p w i h
        simp only at h
        by_cases hp : p = msg.account.pubkey
        · rw [if_pos hp] at h
          obtain ⟨hw, hi⟩ : msg.account.write_version = w ∧ e.vec.length = i := by
            cases h; exact ⟨rfl, rfl⟩
          subst hw; subst hi; subst hp
          exact ⟨msg, List.getElem?_concat_length _ _, rfl, rfl⟩
        · rw [if_neg hp] at h
          rcases he.map_sound p w i h with ⟨a, ha, hap, haw⟩
          have hlt : i < e.vec.length := (List.getElem?_eq_some.mp ha).1
          exact ⟨a, by rw [List.getElem?_append_left hlt]; exact ha, hap, haw⟩
      · intro p₁ p₂ w₁ w₂ i h₁ h₂
        simp only at h₁ h₂
        by_cases hp₁ : p₁ = msg.account.pubkey <;> by_cases hp₂ : p₂ = msg.account.pubkey
        · rw [hp₁, hp₂]
        · rw [if_pos hp₁] at h₁
          rw [if_neg hp₂] at h₂
          obtain ⟨hw, hi⟩ : msg.account.write_version = w₁ ∧ e.vec.length = i := by
            cases h₁; exact ⟨rfl, rfl⟩
          rcases he.map_sound p₂ w₂ i h₂ with ⟨a, ha, -, -⟩
          have hlt : i < e.vec.length := (List.getElem?_eq_some.mp ha).1
          omega
        · rw [if_neg hp₁] at h₁
          rw [if_pos hp₂] at h₂
          obtain ⟨hw, hi⟩ : msg.account.write_version = w₂ ∧ e.vec.length = i := by
            cases h₂; exact ⟨rfl, rfl⟩
          rcases he.map_sound p₁ w₁ i h₁ with ⟨a, ha, -, -⟩
          have hlt : i < e.vec.length := (List.getElem?_eq_some.mp ha).1
          omega
        · rw [if_neg hp₁] at h₁
          rw [if_neg hp₂] at h₂
          exact he.map_inj p₁ p₂ w₁ w₂ i h₁ h₂
      · intro j a h
        simp only at h ⊢
        by_cases hj : j < e.vec.length
        · rw [List.getElem?_append_left hj] at h
          have hmap := he.vec_sound j a h
          have hp : a.account.pubkey ≠ msg.account.pubkey := by
            intro heq
            rw [heq, hm] at hmap
            cases hmap
          rw [if_neg hp]
          exact hmap
        · have hj2 : j = e.vec.length := by
            have hlen : j < (e.vec ++ [some (Message.account msg)]).length :=
              (List.getElem?_eq_some.mp h).1
            simp at hlen
            omega
          subst hj2
          rw [List.getElem?_concat_length] at h
          obtain rfl : msg = a := by
            cases h with
            | refl => rfl
          rw [if_pos rfl]
    · -- existing pubkey
      simp only [SlotEntry.insert, hm]
      by_cases hlt : w₀ < msg.account.write_version
      · -- replacement: null the superseded index, append at the tail
        rw [if_pos hlt]
        rcases he.map_sound _ _ _ hm with ⟨a₀, ha₀, ha₀p, ha₀w⟩
        have hi₀ : i₀ < e.vec.length := (List.getElem?_eq_some.mp ha₀).1
        have hlen : (e.vec.set i₀ none).length = e.vec.length := List.length_set _ _ _
        constructor
        · intro p w i h
          simp only at h
          by_cases hp : p = msg.account.pubkey
          · rw [if_pos hp] at h
            obtain ⟨hw, hi⟩ : msg.account.write_version = w ∧ e.vec.length = i := by
              cases h; exact ⟨rfl, rfl⟩
            subst hw; subst hi; subst hp
            refine ⟨msg, ?_, rfl, rfl⟩
            rw [show e.vec.length = (e.vec.set i₀ none).length from hlen.symm]
            exact List.getElem?_concat_length _ _
          · rw [if_neg hp] at h
            rcases he.map_sound p w i h with ⟨a, ha, hap, haw⟩
            have hi : i < e.vec.length := (List.getElem?_eq_some.mp ha).1
            have hii : i ≠ i₀ := by
              intro hieq
              subst hieq
              exact hp (he.map_inj p msg.account.pubkey w w₀ i h hm)
            refine ⟨a, ?_, hap, haw⟩
            rw [List.getElem?_append_left (by omega), List.getElem?_set_ne (fun hx => hii hx.symm)]
            exact ha
        · intro p₁ p₂ w₁ w₂ i h₁ h₂
          simp only at h₁ h₂
          by_cases hp₁ : p₁ = msg.account.pubkey <;> by_cases hp₂ : p₂ = msg.account.pubkey
          · rw [hp₁, hp₂]
          · rw [if_pos hp₁] at h₁
            rw [if_neg hp₂] at h₂
            obtain ⟨hw, hi⟩ : msg.account.write_version = w₁ ∧ e.vec.length = i := by
              cases h₁; exact ⟨rfl, rfl⟩
            rcases he.map_sound p₂ w₂ i h₂ with ⟨a, ha, -, -⟩
            have : i < e.vec.length := (List.getElem?_eq_some.mp ha).1
            omega
          · rw [if_neg hp₁] at h₁
            rw [if_pos hp₂] at h₂
            obtain ⟨hw, hi⟩ : msg.account.write_version = w₂ ∧ e.vec.length = i := by
              cases h₂; exact ⟨rfl, rfl⟩
            rcases he.map_sound p₁ w₁ i h₁ with ⟨a, ha, -, -⟩
            have : i < e.vec.length := (List.getElem?_eq_some.mp ha).1
            omega
          · rw [if_neg hp₁] at h₁
            rw [if_neg hp₂] at h₂
            exact he.map_inj p₁ p₂ w₁ w₂ i h₁ h₂
        · intro j a h
          simp only at h ⊢
          by_cases hj : j < e.vec.length
          · rw [List.getElem?_append_left (by omega)] at h
            by_cases hji : j = i₀
            · subst hji
              rw [List.getElem?_set_self hi₀] at h
              cases h
            · rw [List.getElem?_set_ne (fun hx => hji hx.symm)] at h
              have hmap := he.vec_sound j a h
              have hp : a.account.pubkey ≠ msg.account.pubkey := by
                intro hpe
                rw [hpe, hm] at hmap
                have : j = i₀ := by cases hmap; rfl
                exact hji this
              rw [if_neg hp]
              exact hmap
          · have hj2 : j = e.vec.length := by
              have hlen2 : j < ((e.vec.set i₀ none) ++ [some (Message.account msg)]).length :=
                (List.getElem?_eq_some.mp h).1
              simp at hlen2
              omega
            subst hj2
            rw [show e.vec.length = (e.vec.set i₀ none).length from hlen.symm] at h
            rw [List.getElem?_concat_length] at h
            obtain rfl : msg = a := by
              cases h with
              | refl => rfl
            rw [if_pos rfl]
      · -- stale write_version: the entry is returned unchanged
        rw [if_neg hlt]
        exact he
  | slot msg =>
    exact entryInv_append_nonaccount e he (Message.slot msg) (fun a h => Message.noConfusion h)
  | transaction msg =>
    exact entryInv_append_nonaccount e he (Message.transaction msg)
      (fun a h => Message.noConfusion h)
  | block msg =>
    exact entryInv_append_nonaccount e he (Message.block msg) (fun a h => Message.noConfusion h)
  | blockMeta msg =>
    exact entryInv_append_nonaccount e he (Message.blockMeta msg)
      (fun a h => Message.noConfusion h)

theorem stateInv_initial : StateInv (fun _ => none) := by
  intro k e hk
  cases hk

theorem stateInv_update (messages : Nat → Option SlotEntry) (h : StateInv messages)
    (m : Message) :
    StateInv (fun k => if k = m.get_slot
      then some (((messages m.get_slot).getD SlotEntry.empty).insert m)
      else messages k) := by
  intro k e hk
  simp only at hk
  split at hk
  · have hbase : EntryInv ((messages m.get_slot).getD SlotEntry.empty) := by
      cases hmm : messages m.get_slot with
      | none => simpa [hmm] using entryInv_empty
      | some e₀ => simpa [hmm] using h _ e₀ hmm
    injection hk with h1
    rw [← h1]
    exact entryInv_insert _ m hbase
  · exact h k e hk

theorem stateInv_processMessage (messages : Nat → Option SlotEntry)
    (processed : List Message) (m : Message) (h : StateInv messages) :
    StateInv (processMessage messages processed m).messages := by
  cases m with
  | slot slotMsg =>
    rcases slotMsg with ⟨s, par, status⟩
    cases status with
    | processed => exact h
    | confirmed => exact h
    | finalized =>
      intro k e hk
      replace hk : (if s < k then messages k else none) = some e := hk
      split at hk
      · exact h k e hk
      · cases hk
  | account msg => exact stateInv_update messages h (Message.account msg)
  | transaction msg => exact stateInv_update messages h (Message.transaction msg)
  | block msg => exact stateInv_update messages h (Message.block msg)
  | blockMeta msg => exact stateInv_update messages h (Message.blockMeta msg)

theorem stateInv_geyserStep (st : GeyserState) (m : Message) (h : StateInv st.messages) :
    StateInv ((geyserStep st m).1).messages := by
  cases hcb : (constructBlock st.transactions m).2 with
  | none =>
    simp only [geyserStep, hcb]
    exact stateInv_processMessage _ _ _ h
  | some bmsg =>
    simp only [geyserStep, hcb]
    exact stateInv_processMessage _ _ _ (stateInv_processMessage _ _ _ h)

theorem stateInv_foldl (ms : List Message) (st : GeyserState) (h : StateInv st.messages) :
    StateInv ((ms.foldl (fun st m => (geyserStep st m).1) st).messages) := by
  induction ms generalizing st with
  | nil => exact h
  | cons m rest ih => exact ih _ (stateInv_geyserStep st m h)

theorem accountsOf_append (p : Nat) (ms : List Message) (m : Message) :
    accountsOf p (ms ++ [m]) = accountsOf p ms ++ accountsOf p [m] := by
  simp [accountsOf, List.filterMap_append]

theorem accountsOf_account_eq (p : Nat) (a : MessageAccount) (h : a.account.pubkey = p) :
    accountsOf p [Message.account a] = [a] := by
  simp [accountsOf, h]

theorem accountsOf_account_ne (p : Nat) (a : MessageAccount) (h : ¬ a.account.pubkey = p) :
    accountsOf p [Message.account a] = [] := by
  simp [accountsOf, h]

theorem accountsOf_nonaccount (p : Nat) (m : Message)
    (h : ∀ a, m ≠ Message.account a) : accountsOf p [m] = [] := by
  cases m with
  | account a => exact absurd rfl (h a)
  | slot msg => simp [accountsOf]
  | transaction msg => simp [accountsOf]
  | block msg => simp [accountsOf]
  | blockMeta msg => simp [accountsOf]

theorem firstMaxAcct_append (l : List MessageAccount) (a : MessageAccount) :
    firstMaxAcct (l ++ [a]) =
      match firstMaxAcct l with
      | none => some a
      | some b =>
        if b.account.write_version < a.account.write_version then some a else some b := by
  have hstep : firstMaxAcct (l ++ [a]) =
      (fun acc (x : MessageAccount) =>
        match acc with
        | none => some x
        | some b => if b.account.write_version < x.account.write_version then some x else acc)
        (firstMaxAcct l) a := by
    rw [firstMaxAcct, List.foldl_append, List.foldl_cons, List.foldl_nil]
    rfl
  rw [hstep]
  cases hfm : firstMaxAcct l with
  | none => rfl
  | some b =>
    by_cases hw : b.account.write_version < a.account.write_version
    · simp [hw]
    · simp [hw]

theorem track_nil : Track [] SlotEntry.empty := by
  intro p
  simp [Track, accountsOf, firstMaxAcct, SlotEntry.empty]

theorem track_step_nonaccount (ms : List Message) (e : SlotEntry) (ht : Track ms e)
    (m : Message) (hm : ∀ a, m ≠ Message.account a) :
    Track (ms ++ [m]) ⟨e.vec ++ [some m], e.map⟩ := by
  intro p
  rw [accountsOf_append, accountsOf_nonaccount p m hm, List.append_nil]
  have htp := ht p
  cases hfm : firstMaxAcct (accountsOf p ms) with
  | none =>
    rw [hfm] at htp
    exact htp
  | some b =>
    rw [hfm] at htp
    obtain ⟨i, hmapp, hveci⟩ := htp
    have hi : i < e.vec.length := (List.getElem?_eq_some.mp hveci).1
    refine ⟨i, hmapp, ?_⟩
    show (e.vec ++ [some m])[i]? = some (some (Message.account b))
    rw [List.getElem?_append_left hi]
    exact hveci

theorem track_insert (ms : List Message) (e : SlotEntry) (he : EntryInv e)
    (ht : Track ms e) (m : Message) : Track (ms ++ [m]) (e.insert m) := by
  cases m with
  | account a₁ =>
    intro p
    by_cases hp : a₁.account.pubkey = p
    · -- the inserted account is for the tracked pubkey
      rw [accountsOf_append, accountsOf_account_eq p a₁ hp]
      have htp := ht p
      cases hfm : firstMaxAcct (accountsOf p ms) with
      | none =>
        rw [hfm] at htp
        have hmap : e.map a₁.account.pubkey = none := by rw [hp]; exact htp
        have hins : SlotEntry.insert e (Message.account a₁) =
            ⟨e.vec ++ [some (Message.account a₁)],
             fun q => if q = a₁.account.pubkey
               then some (a₁.account.write_version, e.vec.length) else e.map q⟩ := by
          simp only [SlotEntry.insert, hmap]
        have hred : firstMaxAcct (accountsOf p ms ++ [a₁]) = some a₁ := by
          rw [firstMaxAcct_append, hfm]
        rw [hred, hins]
        refine ⟨e.vec.length, ?_, ?_⟩
        · show (if p = a₁.account.pubkey
              then some (a₁.account.write_version, e.vec.length) else e.map p) =
            some (a₁.account.write_version, e.vec.length)
          rw [if_pos hp.symm]
        · show (e.vec ++ [some (Message.account a₁)])[e.vec.length]? =
            some (some (Message.account a₁))
          rw [List.getElem?_concat_length]
      | some b =>
        rw [hfm] at htp
        obtain ⟨i, hmapp, hveci⟩ := htp
        have hmap : e.map a₁.account.pubkey = some (b.account.write_version, i) := by
          rw [hp]; exact hmapp
        by_cases hw : b.account.write_version < a₁.account.write_version
        · -- strictly greater write_version: replacement
          have hins : SlotEntry.insert e (Message.account a₁) =
              ⟨e.vec.set i none ++ [some (Message.account a₁)],
               fun q => if q = a₁.account.pubkey
                 then some (a₁.account.write_version, e.vec.length) else e.map q⟩ := by
            simp only [SlotEntry.insert, hmap, if_pos hw]
          have hred : firstMaxAcct (accountsOf p ms ++ [a₁]) = some a₁ := by
            rw [firstMaxAcct_append, hfm]
            simp [hw]
          rw [hred, hins]
          refine ⟨e.vec.length, ?_, ?_⟩
          · show (if p = a₁.account.pubkey
                then some (a₁.account.write_version, e.vec.length) else e.map p) =
              some (a₁.account.write_version, e.vec.length)
            rw [if_pos hp.symm]
          · show (e.vec.set i none ++ [some (Message.account a₁)])[e.vec.length]? =
              some (some (Message.account a₁))
            rw [show e.vec.length = (e.vec.set i none).length from
              (List.length_set _ _ _).symm]
            rw [List.getElem?_concat_length]
        · -- stale write_version: dropped, the old winner stays
          have hins : SlotEntry.insert e (Message.account a₁) = e := by
            simp only [SlotEntry.insert, hmap, if_neg hw]
          have hred : firstMaxAcct (accountsOf p ms ++ [a₁]) = some b := by
            rw [firstMaxAcct_append, hfm]
            simp [hw]
          rw [hred, hins]
          exact ⟨i, hmapp, hveci⟩
    · -- an account for a different pubkey
      rw [accountsOf_append, accountsOf_account_ne p a₁ hp, List.append_nil]
      have htp := ht p
      cases hmap : e.map a₁.account.pubkey with
      | none =>
        have hins : SlotEntry.insert e (Message.account a₁) =
            ⟨e.vec ++ [some (Message.account a₁)],
             fun q => if q = a₁.account.pubkey
               then some (a₁.account.write_version, e.vec.length) else e.map q⟩ := by
          simp only [SlotEntry.insert, hmap]
        rw [hins]
        cases hfm : firstMaxAcct (accountsOf p ms) with
        | none =>
          rw [hfm] at htp
          show (if p = a₁.account.pubkey
              then some (a₁.account.write_version, e.vec.length) else e.map p) = none
          rw [if_neg (fun h => hp h.symm)]
          exact htp
        | some b =>
          rw [hfm] at htp
          obtain ⟨i, hmapp, hveci⟩ := htp
          have hi : i < e.vec.length := (List.getElem?_eq_some.mp hveci).1
          refine ⟨i, ?_, ?_⟩
          · show (if p = a₁.account.pubkey
                then some (a₁.account.write_version, e.vec.length) else e.map p) =
              some (b.account.write_version, i)
            rw [if_neg (fun h => hp h.symm)]
            exact hmapp
          · show (e.vec ++ [some (Message.account a₁)])[i]? =
              some (some (Message.account b))
            rw [List.getElem?_append_left hi]
            exact hveci
      | some wi =>
        obtain ⟨w₀, i₀⟩ := wi
        by_cases hw : w₀ < a₁.account.write_version
        · have hins : SlotEntry.insert e (Message.account a₁) =
              ⟨e.vec.set i₀ none ++ [some (Message.account a₁)],
               fun q => if q = a₁.account.pubkey
                 then some (a₁.account.write_version, e.vec.length) else e.map q⟩ := by
            simp only [SlotEntry.insert, hmap, if_pos hw]
          rw [hins]
          cases hfm : firstMaxAcct (accountsOf p ms) with
          | none =>
            rw [hfm] at htp
            show (if p = a₁.account.pubkey
                then some (a₁.account.write_version, e.vec.length) else e.map p) = none
            rw [if_neg (fun h => hp h.symm)]
            exact htp
          | some b =>
            rw [hfm] at htp
            obtain ⟨i, hmapp, hveci⟩ := htp
            have hi : i < e.vec.length := (List.getElem?_eq_some.mp hveci).1
            have hii : i ≠ i₀ := by
              intro hieq
              subst hieq
              exact hp (he.map_inj a₁.account.pubkey p _ _ i hmap hmapp)
            refine ⟨i, ?_, ?_⟩
            · show (if p = a₁.account.pubkey
                  then some (a₁.account.write_version, e.vec.length) else e.map p) =
                some (b.account.write_version, i)
              rw [if_neg (fun h => hp h.symm)]
              exact hmapp
            · show (e.vec.set i₀ none ++ [some (Message.account a₁)])[i]? =
                some (some (Message.account b))
              rw [List.getElem?_append_left (by simpa using hi),
                List.getElem?_set_ne (fun hx => hii hx.symm)]
              exact hveci
        · have hins : SlotEntry.insert e (Message.account a₁) = e := by
            simp only [SlotEntry.insert, hmap, if_neg hw]
          rw [hins]
          exact htp
  | slot msg =>
    exact track_step_nonaccount ms e ht (Message.slot msg) (fun a h => Message.noConfusion h)
  | transaction msg =>
    exact track_step_nonaccount ms e ht (Message.transaction msg)
      (fun a h => Message.noConfusion h)
  | block msg =>
    exact track_step_nonaccount ms e ht (Message.block msg) (fun a h => Message.noConfusion h)
  | blockMeta msg =>
    exact track_step_nonaccount ms e ht (Message.blockMeta msg)
      (fun a h => Message.noConfusion h)

theorem entryInv_track_reachEntry (ms : List Message) :
    EntryInv (reachEntry ms) ∧ Track ms (reachEntry ms) := by
  induction ms using List.reverseRecOn with
  | nil => exact ⟨entryInv_empty, track_nil⟩
  | append_singleton ms m ih =>
    have hfold : reachEntry (ms ++ [m]) = (reachEntry ms).insert m := by
      rw [reachEntry, reachEntry, List.foldl_append, List.foldl_cons, List.foldl_nil]
    rw [hfold]
    exact ⟨entryInv_insert _ _ ih.1, track_insert ms _ ih.1 ih.2 m⟩

theorem u64sub_eq (a b : Nat) (hb : b ≤ a) (ha : a < U64MOD) : u64sub a b = a - b := by
  have hU : U64MOD = 18446744073709551616 := by norm_num [U64MOD]
  rw [u64sub, hU]
  rw [hU] at ha
  omega

/-- C9: the account data emitted on the wire equals, for a non-empty slice
list, the concatenation in list order of data[start..end] over exactly the
ranges whose end does not exceed the data length (ranges reaching past the
end are skipped), and for an empty slice list the full account data
unchanged. -/
theorem c9_data_slices (message : MessageAccount)
    (accounts_data_slice : List FilterAccountsDataSlice) :
    MessageAccount.toProtoData message accounts_data_slice =
      if accounts_data_slice.isEmpty then message.account.data
      else
        (accounts_data_slice.filter
            (fun ds => ds.stop ≤ message.account.data.length)).flatMap
          (fun ds => (message.account.data.drop ds.start).take (ds.stop - ds.start)) := by
  by_cases h : accounts_data_slice.isEmpty
  · simp [MessageAccount.toProtoData, h]
  · simp only [MessageAccount.toProtoData, h, Bool.false_eq_true, if_false]
    rw [foldl_ite_append_eq_flatMap
      (fun ds : FilterAccountsDataSlice => ds.stop ≤ message.account.data.length)
      (fun ds : FilterAccountsDataSlice =>
        (message.account.data.drop ds.start).take (ds.stop - ds.start))
      accounts_data_slice []]
    simp

/-- C7: is_blockhash_valid fails with the startup error whenever the
blockhash registry holds fewer than MAX_RECENT_BLOCKHASHES + 32 entries;
otherwise, provided the commitment cursor is set, it returns the
per-commitment flag of the registry entry for the blockhash (false when
the blockhash is absent) together with the cursor slot. -/
theorem c7_blockhash_valid (storage : BlockMetaStorageInner) (blockhash : String)
    (commitment : CommitmentLevel) :
    (storage.blockhashes.length < MAX_RECENT_BLOCKHASHES + 32 →
      is_blockhash_valid storage blockhash commitment =
        Except.error (Status.internal "startup"))
    ∧ (∀ s, MAX_RECENT_BLOCKHASHES + 32 ≤ storage.blockhashes.length →
        cursorOf storage commitment = some s →
        is_blockhash_valid storage blockhash commitment =
          Except.ok ⟨((hmGet storage.blockhashes blockhash).map (fun status =>
            match commitment with
            | .processed => status.processed
            | .confirmed => status.confirmed
            | .finalized => status.finalized)).getD false, s⟩) := by
  constructor
  · intro h
    simp [is_blockhash_valid, h]
  · intro s hlen hcur
    rw [is_blockhash_valid, if_neg (by omega), hcur]

/-- C7 witness: the empty cache is below the warm-up threshold and the
query fails with the startup error. -/
theorem c7_blockhash_valid_witness :
    is_blockhash_valid BlockMetaStorageInner.empty "x" CommitmentLevel.processed =
      Except.error (Status.internal "startup") :=
  (c7_blockhash_valid BlockMetaStorageInner.empty "x" CommitmentLevel.processed).1
    (by decide)

/-- C3 counterexample: with the processed cursor unset, get_block fails
with the internal block-is-not-available error, which is distinct from the
startup error the claim requires for that case. -/
theorem c3_counterexample :
    cursorOf BlockMetaStorageInner.empty CommitmentLevel.processed = none
    ∧ get_block (T := Nat) BlockMetaStorageInner.empty (fun block => some block.slot)
        CommitmentLevel.processed =
        Except.error (Status.internal "block is not available yet")
    ∧ Status.internal "block is not available yet" ≠ Status.internal "startup" := by
  refine ⟨rfl, rfl, ?_⟩
  decide

/-- C3: corrected. A point query through get_block fails with the same
internal block-is-not-available error in both failure regimes: when the
commitment cursor is unset, and when the cursor is set but its slot is no
longer in the blocks map; no distinct startup error is produced. -/
theorem c3_not_available_error {T : Type} (storage : BlockMetaStorageInner)
    (handler : MessageBlockMeta → Option T) (commitment : CommitmentLevel) :
    (cursorOf storage commitment = none →
      get_block storage handler commitment =
        Except.error (Status.internal "block is not available yet"))
    ∧ (∀ s, cursorOf storage commitment = some s → hmGet storage.blocks s = none →
        get_block storage handler commitment =
          Except.error (Status.internal "block is not available yet")) := by
  constructor
  · intro h
    simp [get_block, h]
  · intro s hcur hblk
    simp [get_block, hcur, hblk]

/-- C3 witness: get_block on a cache whose finalized cursor points at an
evicted slot fails with the block-is-not-available error. -/
theorem c3_not_available_error_witness :
    get_block (T := Nat) ⟨[], [], none, none, some 10⟩ (fun block => some block.slot)
        CommitmentLevel.finalized =
      Except.error (Status.internal "block is not available yet") :=
  (c3_not_available_error ⟨[], [], none, none, some 10⟩ (fun block => some block.slot)
    CommitmentLevel.finalized).2 10 rfl rfl

/-- C8 counterexample: with the finalized cursor set to slot 10 but the
blocks map empty, get_slot fails instead of returning the cursor slot
unconditionally. -/
theorem c8_counterexample :
    cursorOf ⟨[], [], none, none, some 10⟩ CommitmentLevel.finalized = some 10
    ∧ get_slot ⟨[], [], none, none, some 10⟩ CommitmentLevel.finalized =
        Except.error (Status.internal "block is not available yet") :=
  ⟨rfl, rfl⟩

/-- C8: corrected. Once the commitment cursor is set, get_slot returns the
slot recorded in the cached block meta at the cursor slot only while that
slot is still in the blocks map; when the block has been evicted the query
fails with the internal block-is-not-available error rather than returning
the cursor slot. -/
theorem c8_get_slot (storage : BlockMetaStorageInner) (commitment : CommitmentLevel)
    (s : Nat) (hcur : cursorOf storage commitment = some s) :
    (∀ b, hmGet storage.blocks s = some b →
      get_slot storage commitment = Except.ok ⟨b.slot⟩)
    ∧ (hmGet storage.blocks s = none →
      get_slot storage commitment =
        Except.error (Status.internal "block is not available yet")) := by
  constructor
  · intro b hb
    simp [get_slot, get_block, hcur, hb]
  · intro hb
    simp [get_slot, get_block, hcur, hb]

/-- C8 witness: with the finalized cursor at slot 10 and the block for
slot 10 cached, get_slot returns slot 10. -/
theorem c8_get_slot_witness :
    get_slot ⟨[(10, ⟨9, 10, "p", "h", [], none, none, 0⟩)], [], none, none, some 10⟩
        CommitmentLevel.finalized = Except.ok ⟨10⟩ :=
  (c8_get_slot ⟨[(10, ⟨9, 10, "p", "h", [], none, none, 0⟩)], [], none, none, some 10⟩
    CommitmentLevel.finalized 10 rfl).1 ⟨9, 10, "p", "h", [], none, none, 0⟩ rfl

theorem applySlotCursor_blocks (storage : BlockMetaStorageInner) (msg : MessageSlot) :
    (applySlotCursor storage msg).blocks = storage.blocks := by
  rcases msg with ⟨s, par, status⟩
  cases status <;> rfl

theorem applySlotCursor_blockhashes (storage : BlockMetaStorageInner) (msg : MessageSlot) :
    (applySlotCursor storage msg).blockhashes = storage.blockhashes := by
  rcases msg with ⟨s, par, status⟩
  cases status <;> rfl

theorem applySlotBlockhash_blocks (storage : BlockMetaStorageInner) (msg : MessageSlot) :
    (applySlotBlockhash storage msg).blocks = storage.blocks := by
  rw [applySlotBlockhash]
  cases (hmGet storage.blocks msg.slot).map (fun block => block.blockhash) with
  | none => rfl
  | some bh => rfl

/-- C6 counterexample: a finalized slot event for slot 0 makes the u64
retention subtraction wrap around and evicts the cached block at slot 5,
although 5 is not below 0 - KEEP_SLOTS in exact integer arithmetic, so the
eviction bound stated for every finalized slot fails. -/
theorem c6_counterexample :
    ((0 : Int) - (KEEP_SLOTS : Int) ≤ (5 : Int))
    ∧ hmGet (applyMessage
        ⟨[(5, ⟨4, 5, "p4", "h5", [], none, none, 0⟩)], [], none, none, none⟩
        (Message.slot ⟨0, none, CommitmentLevel.finalized⟩)).blocks 5 = none := by
  constructor
  · decide
  · rfl

/-- C6: corrected. For a finalized slot event whose slot is at least
MAX_RECENT_BLOCKHASHES + 32 (and below 2^64, so that the u64 retention
subtractions do not wrap), the sweeps behave as the claim states: blocks
entries with slot below S - KEEP_SLOTS are evicted and all others
retained, and blockhash entries (of the registry as it stands after the
cursor and flag updates of the same event, keyed without duplicates)
recorded below S - MAX_RECENT_BLOCKHASHES - 32 are evicted and all others
retained. For finalized slots below the threshold the wrapping
subtraction evicts entries the claim says are retained. -/
theorem c6_retention (storage : BlockMetaStorageInner) (msg : MessageSlot)
    (hst : msg.status = CommitmentLevel.finalized)
    (hge : MAX_RECENT_BLOCKHASHES + 32 ≤ msg.slot) (hlt : msg.slot < U64MOD)
    (hnd : (((applySlotBlockhash (applySlotCursor storage msg) msg).blockhashes).map
      Prod.fst).Nodup) :
    (∀ k, k + KEEP_SLOTS < msg.slot →
      hmGet (applyMessage storage (Message.slot msg)).blocks k = none)
    ∧ (∀ k, msg.slot ≤ k + KEEP_SLOTS →
      hmGet (applyMessage storage (Message.slot msg)).blocks k = hmGet storage.blocks k)
    ∧ (∀ h bs, hmGet (applySlotBlockhash (applySlotCursor storage msg) msg).blockhashes h
        = some bs → bs.slot + (MAX_RECENT_BLOCKHASHES + 32) < msg.slot →
        hmGet (applyMessage storage (Message.slot msg)).blockhashes h = none)
    ∧ (∀ h bs, hmGet (applySlotBlockhash (applySlotCursor storage msg) msg).blockhashes h
        = some bs → msg.slot ≤ bs.slot + (MAX_RECENT_BLOCKHASHES + 32) →
        hmGet (applyMessage storage (Message.slot msg)).blockhashes h = some bs) := by
  have hmax : MAX_RECENT_BLOCKHASHES = 300 := rfl
  have hks : KEEP_SLOTS = 3 := rfl
  have h3 : u64sub msg.slot KEEP_SLOTS = msg.slot - KEEP_SLOTS :=
    u64sub_eq msg.slot KEEP_SLOTS (by omega) hlt
  have h300 : u64sub msg.slot MAX_RECENT_BLOCKHASHES = msg.slot - MAX_RECENT_BLOCKHASHES :=
    u64sub_eq msg.slot MAX_RECENT_BLOCKHASHES (by omega) hlt
  have h332 : u64sub (u64sub msg.slot MAX_RECENT_BLOCKHASHES) 32 =
      msg.slot - (MAX_RECENT_BLOCKHASHES + 32) := by
    rw [h300, u64sub_eq (msg.slot - MAX_RECENT_BLOCKHASHES) 32 (by omega) (by omega)]
    omega
  have happly : applyMessage storage (Message.slot msg) =
      applySlotRetain (applySlotBlockhash (applySlotCursor storage msg) msg) msg := rfl
  have hretain : applySlotRetain (applySlotBlockhash (applySlotCursor storage msg) msg) msg
      = { applySlotBlockhash (applySlotCursor storage msg) msg with
          blocks := ((applySlotBlockhash (applySlotCursor storage msg) msg).blocks).filter
            (fun kv => u64sub msg.slot KEEP_SLOTS ≤ kv.1)
          blockhashes :=
            ((applySlotBlockhash (applySlotCursor storage msg) msg).blockhashes).filter
              (fun kv => u64sub (u64sub msg.slot MAX_RECENT_BLOCKHASHES) 32 ≤ kv.2.slot) } := by
    rw [applySlotRetain, if_pos hst]
  have hmid : (applySlotBlockhash (applySlotCursor storage msg) msg).blocks =
      storage.blocks := by
    rw [applySlotBlockhash_blocks, applySlotCursor_blocks]
  refine ⟨?_, ?_, ?_, ?_⟩
  · intro k hk
    rw [happly, hretain]
    show hmGet (((applySlotBlockhash (applySlotCursor storage msg) msg).blocks).filter
      (fun kv => u64sub msg.slot KEEP_SLOTS ≤ kv.1)) k = none
    rw [h3, hmid,
      hmGet_filter_key storage.blocks (fun x => decide (msg.slot - KEEP_SLOTS ≤ x)) k]
    rw [if_neg (by simp only [decide_eq_true_eq]; omega)]
  · intro k hk
    rw [happly, hretain]
    show hmGet (((applySlotBlockhash (applySlotCursor storage msg) msg).blocks).filter
      (fun kv => u64sub msg.slot KEEP_SLOTS ≤ kv.1)) k = hmGet storage.blocks k
    rw [h3, hmid,
      hmGet_filter_key storage.blocks (fun x => decide (msg.slot - KEEP_SLOTS ≤ x)) k]
    rw [if_pos (by simp only [decide_eq_true_eq]; omega)]
  · intro h bs hbs hlt2
    rw [happly, hretain]
    show hmGet (((applySlotBlockhash (applySlotCursor storage msg) msg).blockhashes).filter
      (fun kv => u64sub (u64sub msg.slot MAX_RECENT_BLOCKHASHES) 32 ≤ kv.2.slot)) h = none
    rw [h332, hmGet_filter_val _
      (fun v : BlockhashStatus => decide (msg.slot - (MAX_RECENT_BLOCKHASHES + 32) ≤ v.slot))
      h hnd, hbs]
    simp only [Option.some_bind]
    rw [if_neg (by simp only [decide_eq_true_eq]; omega)]
  · intro h bs hbs hge2
    rw [happly, hretain]
    show hmGet (((applySlotBlockhash (applySlotCursor storage msg) msg).blockhashes).filter
      (fun kv => u64sub (u64sub msg.slot MAX_RECENT_BLOCKHASHES) 32 ≤ kv.2.slot)) h = some bs
    rw [h332, hmGet_filter_val _
      (fun v : BlockhashStatus => decide (msg.slot - (MAX_RECENT_BLOCKHASHES + 32) ≤ v.slot))
      h hnd, hbs]
    simp only [Option.some_bind]
    rw [if_pos (by simp only [decide_eq_true_eq]; omega)]

/-- C6 witness: a finalized slot event at slot 335 evicts the cached block
at slot 331 (331 + 3 < 335). -/
theorem c6_retention_witness :
    hmGet (applyMessage
        ⟨[(331, ⟨330, 331, "p", "h331", [], none, none, 0⟩)],
         [("h", ⟨100, false, false, false⟩)], none, none, none⟩
        (Message.slot ⟨335, none, CommitmentLevel.finalized⟩)).blocks 331 = none :=
  (c6_retention
    ⟨[(331, ⟨330, 331, "p", "h331", [], none, none, 0⟩)],
     [("h", ⟨100, false, false, false⟩)], none, none, none⟩
    ⟨335, none, CommitmentLevel.finalized⟩ rfl (by decide) (by decide) (by decide)).1
    331 (by decide)

/-- C4: processing a SlotEvent publishes exactly one batch on each of the
three commitment channels, in the order processed, confirmed, finalized,
regardless of the event's status; every one of the three batches contains
that SlotEvent, the processed batch carries the whole pending processed
buffer ahead of it, and the pending buffer is reset to empty. -/
theorem c4_slot_broadcast (messages : Nat → Option SlotEntry)
    (processed_messages : List Message) (msg : MessageSlot) :
    (processMessage messages processed_messages (Message.slot msg)).processed_messages = []
    ∧ ((processMessage messages processed_messages (Message.slot msg)).broadcasts.map
        Prod.fst) = [CommitmentLevel.processed, CommitmentLevel.confirmed,
          CommitmentLevel.finalized]
    ∧ (∀ b ∈ (processMessage messages processed_messages (Message.slot msg)).broadcasts,
        Message.slot msg ∈ b.2)
    ∧ (processMessage messages processed_messages (Message.slot msg)).broadcasts.head? =
        some (CommitmentLevel.processed, processed_messages ++ [Message.slot msg]) := by
  refine ⟨rfl, rfl, ?_, rfl⟩
  intro b hb
  simp only [processMessage, List.mem_cons, List.not_mem_nil, or_false] at hb
  rcases hb with h | h | h <;> subst h <;> simp

/-- C4 witness: a processed slot event on an empty loop state. -/
theorem c4_slot_broadcast_witness :
    (processMessage (fun _ => none) []
      (Message.slot ⟨7, none, CommitmentLevel.processed⟩)).processed_messages = [] :=
  (c4_slot_broadcast (fun _ => none) [] ⟨7, none, CommitmentLevel.processed⟩).1

/-- C5: on a finalized SlotEvent for slot S the aggregate sweep removes
every entry with key below S, removes the entry at S itself, bumping the
invalid-full-block counter by one exactly when that entry had its meta
set, leaves every entry with key above S untouched, and synthesizes no
Block message. -/
theorem c5_finalized_sweep (st : GeyserState) (msg : MessageSlot)
    (hst : msg.status = CommitmentLevel.finalized)
    (hsorted : List.Pairwise (fun a b => a.1 < b.1) st.transactions) :
    ((geyserStep st (Message.slot msg)).1.transactions =
      st.transactions.filter (fun kv => msg.slot < kv.1))
    ∧ ((geyserStep st (Message.slot msg)).1.invalid_full_blocks =
        st.invalid_full_blocks +
          if ((txGet st.transactions msg.slot).bind (fun e => e.1)).isSome then 1 else 0)
    ∧ (constructBlock st.transactions (Message.slot msg)).2 = none := by
  have hcb : constructBlock st.transactions (Message.slot msg) =
      (st.transactions, none) := by
    rw [constructBlock]
    simp [isBlockConstructing]
  have hswe := sweepTransactions_eq msg.slot st.invalid_full_blocks st.transactions hsorted
  have hg : (geyserStep st (Message.slot msg)).1 =
      ⟨(sweepTransactions msg.slot st.invalid_full_blocks st.transactions).1,
       (processMessage st.messages st.processed_messages (Message.slot msg)).messages,
       (processMessage st.messages st.processed_messages (Message.slot msg)).processed_messages,
       (sweepTransactions msg.slot st.invalid_full_blocks st.transactions).2⟩ := by
    simp only [geyserStep, hcb, hst, Message.get_slot, if_true]
  rw [hg, hswe]
  exact ⟨rfl, rfl, by rw [hcb]⟩

/-- C5 witness: a finalized slot event at slot 5 with a pending aggregate
at slot 5 whose meta is set increments the invalid-full-block counter. -/
theorem c5_finalized_sweep_witness :
    (geyserStep
        ⟨[(5, (some ⟨4, 5, "p", "h", [], none, none, 2⟩, []))], fun _ => none, [], 0⟩
        (Message.slot ⟨5, none, CommitmentLevel.finalized⟩)).1.invalid_full_blocks =
      0 + if ((txGet [(5, (some ⟨4, 5, "p", "h", [], none, none, 2⟩, []))] 5).bind
        (fun e => e.1)).isSome then 1 else 0 :=
  (c5_finalized_sweep
    ⟨[(5, (some ⟨4, 5, "p", "h", [], none, none, 2⟩, []))], fun _ => none, [], 0⟩
    ⟨5, none, CommitmentLevel.finalized⟩ rfl (by simp)).2.1

/-- C2: the reconstruction step synthesizes a Block message if and only if
the incoming message is a Transaction or BlockMeta and, after aggregating
it, the slot aggregate holds a meta whose executed_transaction_count
equals the number of collected transactions; on emission the aggregate
entry for the slot is removed, and the emitted Block carries exactly the
collected transactions sorted ascending by index. -/
theorem c2_block_reconstruction (tx : TxAgg) (m : Message) :
    ((constructBlock tx m).2.isSome ↔
      (isBlockConstructing m = true ∧
        ∃ block_meta txs,
          txGet (constructBlockAgg tx m) m.get_slot = some (some block_meta, txs) ∧
            block_meta.executed_transaction_count = txs.length))
    ∧ (∀ block_meta txs,
        isBlockConstructing m = true →
        txGet (constructBlockAgg tx m) m.get_slot = some (some block_meta, txs) →
        block_meta.executed_transaction_count = txs.length →
        (constructBlock tx m).2 =
          some (Message.block (MessageBlock.ofMetaAndTransactions block_meta (sortTxs txs)))
        ∧ txGet (constructBlock tx m).1 m.get_slot = none
        ∧ List.Pairwise (fun a b => a.index ≤ b.index) (sortTxs txs)
        ∧ (sortTxs txs).Perm txs) := by
  constructor
  · constructor
    · intro h
      by_cases hbc : isBlockConstructing m
      · refine ⟨hbc, ?_⟩
        simp only [constructBlock, hbc, if_true] at h
        cases htx : txGet (constructBlockAgg tx m) m.get_slot with
        | none => rw [htx] at h; simp at h
        | some entry =>
          obtain ⟨mb, txs⟩ := entry
          cases mb with
          | none => rw [htx] at h; simp at h
          | some bm =>
            rw [htx] at h
            by_cases hc : bm.executed_transaction_count = txs.length
            · exact ⟨bm, txs, rfl, hc⟩
            · simp [hc] at h
      · simp only [constructBlock, hbc, Bool.false_eq_true, if_false] at h
        simp at h
    · rintro ⟨hbc, bm, txs, htx, hc⟩
      simp only [constructBlock, hbc, if_true, htx, if_pos hc]
      simp
  · intro bm txs hbc htx hc
    have hout : constructBlock tx m =
        (txRemove (constructBlockAgg tx m) m.get_slot,
         some (Message.block (MessageBlock.ofMetaAndTransactions bm (sortTxs txs)))) := by
      simp only [constructBlock, hbc, if_true, htx, if_pos hc]
    have htrans : ∀ (a b c : MessageTransactionInfo),
        (decide (a.index ≤ b.index)) = true → (decide (b.index ≤ c.index)) = true →
        (decide (a.index ≤ c.index)) = true := by
      intro a b c hab hbc2
      simp only [decide_eq_true_eq] at *
      omega
    have htotal : ∀ (a b : MessageTransactionInfo),
        ((decide (a.index ≤ b.index)) || (decide (b.index ≤ a.index))) = true := by
      intro a b
      simp only [Bool.or_eq_true, decide_eq_true_eq]
      omega
    refine ⟨by rw [hout], ?_, ?_, ?_⟩
    · rw [hout]
      exact txGet_txRemove_self _ _
    · have hs := List.sorted_mergeSort htrans htotal txs
      rw [sortTxs]
      exact hs.imp (fun hab => by simpa using hab)
    · rw [sortTxs]
      exact List.mergeSort_perm txs _

/-- C2 witness: a BlockMeta with executed_transaction_count zero arriving
on an empty aggregate immediately synthesizes the (empty) full block and
removes the aggregate entry. -/
theorem c2_block_reconstruction_witness :
    (constructBlock [] (Message.blockMeta ⟨6, 7, "p", "h", [], none, none, 0⟩)).2 =
      some (Message.block (MessageBlock.ofMetaAndTransactions
        ⟨6, 7, "p", "h", [], none, none, 0⟩ (sortTxs []))) :=
  ((c2_block_reconstruction [] (Message.blockMeta ⟨6, 7, "p", "h", [], none, none, 0⟩)).2
    ⟨6, 7, "p", "h", [], none, none, 0⟩ [] rfl rfl rfl).1

/-- C1: in the per-slot accumulator entry reached by any sequence of
process_message insertions, at most one live account message exists per
pubkey, and it is the first-arriving message among those with the greatest
write_version seen so far; an arriving account message whose write_version
is at most the stored one leaves the entry (sequence and side-map)
completely unchanged, while a strictly greater one nulls the superseded
position, appends the new message at the tail and repoints the side-map. -/
theorem c1_account_dedup (ms : List Message) (a : MessageAccount) (P : Nat) :
    (∀ (j j' : Nat) (x x' : MessageAccount),
      (reachEntry ms).vec[j]? = some (some (Message.account x)) →
      (reachEntry ms).vec[j']? = some (some (Message.account x')) →
      x.account.pubkey = P → x'.account.pubkey = P → j = j')
    ∧ (∀ (j : Nat) (x : MessageAccount),
      (reachEntry ms).vec[j]? = some (some (Message.account x)) →
      x.account.pubkey = P → firstMaxAcct (accountsOf P ms) = some x)
    ∧ (∀ w₀ i₀, (reachEntry ms).map a.account.pubkey = some (w₀, i₀) →
      a.account.write_version ≤ w₀ →
      SlotEntry.insert (reachEntry ms) (Message.account a) = reachEntry ms)
    ∧ (∀ w₀ i₀, (reachEntry ms).map a.account.pubkey = some (w₀, i₀) →
      w₀ < a.account.write_version →
      SlotEntry.insert (reachEntry ms) (Message.account a) =
        ⟨((reachEntry ms).vec.set i₀ none) ++ [some (Message.account a)],
         fun p => if p = a.account.pubkey
           then some (a.account.write_version, (reachEntry ms).vec.length)
           else (reachEntry ms).map p⟩) := by
  obtain ⟨hinv, htrack⟩ := entryInv_track_reachEntry ms
  refine ⟨?_, ?_, ?_, ?_⟩
  · intro j j' x x' hj hj' hpx hpx'
    have h1 := hinv.vec_sound j x hj
    have h2 := hinv.vec_sound j' x' hj'
    rw [hpx] at h1
    rw [hpx'] at h2
    rw [h1] at h2
    injection h2 with h3
    exact congrArg Prod.snd h3
  · intro j x hj hpx
    have h1 := hinv.vec_sound j x hj
    rw [hpx] at h1
    have htp := htrack P
    cases hfm : firstMaxAcct (accountsOf P ms) with
    | none =>
      rw [hfm] at htp
      rw [htp] at h1
      cases h1
    | some b =>
      rw [hfm] at htp
      obtain ⟨i, hmapp, hveci⟩ := htp
      rw [hmapp] at h1
      injection h1 with h2
      have hij : i = j := congrArg Prod.snd h2
      subst hij
      rw [hveci] at hj
      injection hj with h3
      injection h3 with h4
      injection h4 with h5
      exact congrArg some h5
  · intro w₀ i₀ hmap hle
    simp only [SlotEntry.insert, hmap]
    rw [if_neg (by omega)]
  · intro w₀ i₀ hmap hlt
    simp only [SlotEntry.insert, hmap]
    rw [if_pos hlt]

/-- C1 witness: after one account insertion for pubkey 1 at write_version
5, a second arriving account message for pubkey 1 with the same
write_version leaves the accumulator entry completely unchanged. -/
theorem c1_account_dedup_witness :
    SlotEntry.insert
        (reachEntry [Message.account ⟨⟨1, 0, 0, false, 0, [1], 5, none⟩, 10, false⟩])
        (Message.account ⟨⟨1, 0, 0, false, 0, [3], 5, none⟩, 10, false⟩) =
      reachEntry [Message.account ⟨⟨1, 0, 0, false, 0, [1], 5, none⟩, 10, false⟩] :=
  (c1_account_dedup [Message.account ⟨⟨1, 0, 0, false, 0, [1], 5, none⟩, 10, false⟩]
    ⟨⟨1, 0, 0, false, 0, [3], 5, none⟩, 10, false⟩ 1).2.2.1 5 0 rfl (by decide)

/-- C10: in every broadcast-loop state reachable from the initial state
under any ingested message sequence, every populated per-slot accumulator
entry satisfies the side-map invariant: each mapped pubkey points at a
live account message of the sequence carrying that pubkey and the mapped
write_version, distinct pubkeys map to distinct indices, and every live
account message of the sequence is the one its pubkey points at (all
superseded account positions are null). -/
theorem c10_accumulator_invariant (ms : List Message) :
    StateInv (geyserReach ms).messages := by
  rw [geyserReach]
  exact stateInv_foldl ms initialGeyserState stateInv_initial

/-- C10 witness: the invariant at a concrete one-message reachable state. -/
theorem c10_accumulator_invariant_witness :
    StateInv (geyserReach
      [Message.account ⟨⟨2, 0, 0, false, 0, [], 1, none⟩, 3, false⟩]).messages :=
  c10_accumulator_invariant
    [Message.account ⟨⟨2, 0, 0, false, 0, [], 1, none⟩, 3, false⟩]
